import Mathlib

/-!
Verification development for the FHE-simulation sentiment-analysis pipeline.

The definitions below are a shallow embedding of the Python sources:
`fhe_simulator.py` (quantize / dequantize / encrypt / decrypt /
compute_on_encrypted / simulate_fhe_prediction), `text_processor.py`
(input normalization of `text_to_tensor`) and `client.py`
(`analyze_sentiment_detailed` and the global statistics record).

Floating point matrices are embedded as `List (List ℚ)` (exact arithmetic),
numpy int32 values as `ℤ` passed through an explicit wrap `toInt32`,
and the random noise drawn by `np.random.randint` as explicit noise
functions supplied as parameters.
-/

namespace SAFHE

/-- Quantization scale of `FHESimulator.__init__`: `2 ** n_bits - 1`. -/
def qscale (nbits : ℕ) : ℤ := 2 ^ nbits - 1

/-- The scale as a rational, used where numpy divides or multiplies floats. -/
def qscaleQ (nbits : ℕ) : ℚ := ((qscale nbits : ℤ) : ℚ)

/-- Conversion float → integer as performed by `.astype(np.int32)`:
numpy truncates toward zero. -/
def truncToZero (x : ℚ) : ℤ := if 0 ≤ x then ⌊x⌋ else ⌈x⌉

/-- Wrap of an unbounded integer into the int32 range, modelling the
fixed-width `np.int32` store. -/
def toInt32 (z : ℤ) : ℤ := (z + 2 ^ 31) % 2 ^ 32 - 2 ^ 31

/-- Minimum over all elements of a matrix, as `data.min()`; `0` on the
empty matrix (numpy raises there, callers pass non-empty data). -/
def matMin (m : List (List ℚ)) : ℚ :=
  match m.flatten with
  | [] => 0
  | x :: xs => xs.foldl min x

/-- Maximum over all elements of a matrix, as `data.max()`. -/
def matMax (m : List (List ℚ)) : ℚ :=
  match m.flatten with
  | [] => 0
  | x :: xs => xs.foldl max x

/-- Elementwise map over a matrix. -/
def matMap (f : ℚ → ℤ) (m : List (List ℚ)) : List (List ℤ) :=
  m.map (fun row => row.map f)

/-- One element of the non-degenerate branch of `FHESimulator.quantize`:
normalize into `[0, 1]`, multiply by the scale, cast to `np.int32`. -/
def quantizeElemND (nbits : ℕ) (dmin dmax x : ℚ) : ℤ :=
  toInt32 (truncToZero ((x - dmin) / (dmax - dmin) * qscaleQ nbits))

/-- One element of the degenerate branch of `FHESimulator.quantize`
(`data_max - data_min > 0` fails): normalization is bypassed, the raw value
is multiplied by the scale and cast to `np.int32`. -/
def quantizeElemConst (nbits : ℕ) (x : ℚ) : ℤ :=
  toInt32 (truncToZero (x * qscaleQ nbits))

/-- Embedding of `FHESimulator.quantize`: normalize to `[0, 1]` when the
range is non-degenerate (otherwise bypass normalization), multiply by the
scale and cast to `np.int32`.  Returns the integer matrix together with
`data_min` and `data_max`. -/
def quantize (nbits : ℕ) (data : List (List ℚ)) :
    List (List ℤ) × ℚ × ℚ :=
  let dmin := matMin data
  let dmax := matMax data
  if dmax - dmin > 0 then
    (matMap (quantizeElemND nbits dmin dmax) data, dmin, dmax)
  else
    (matMap (quantizeElemConst nbits) data, dmin, dmax)

/-- One element of `FHESimulator.dequantize`: divide by the scale and map
back through the affine range `[data_min, data_max]`. -/
def dequantElem (nbits : ℕ) (dmin dmax : ℚ) (z : ℤ) : ℚ :=
  (z : ℚ) / qscaleQ nbits * (dmax - dmin) + dmin

/-- Embedding of `FHESimulator.dequantize`: divide by the scale and map back
through the affine range `[data_min, data_max]`. -/
def dequantize (nbits : ℕ) (q : List (List ℤ)) (dmin dmax : ℚ) :
    List (List ℚ) :=
  q.map (fun row => row.map (dequantElem nbits dmin dmax))

/-- Element `(i, j)` of a float matrix (`0` out of range). -/
def mGet (m : List (List ℚ)) (i j : ℕ) : ℚ := (m.getD i []).getD j 0

/-- Element `(i, j)` of the round trip `dequantize(*quantize(x))`, feeding
the quantized matrix and the captured `data_min`/`data_max` back into
`dequantize`. -/
def roundtripElem (nbits : ℕ) (m : List (List ℚ)) (i j : ℕ) : ℚ :=
  ((dequantize nbits (quantize nbits m).1 (quantize nbits m).2.1
      (quantize nbits m).2.2).getD i []).getD j 0

/-- Metadata returned by `FHESimulator.encrypt`: the original shape and the
tag `encryption_method = simulated`. -/
structure EncMetadata where
  original_shape : ℕ × ℕ
  encryption_method : String
deriving DecidableEq

/-- Map a function over a matrix with the row and column index available,
modelling numpy broadcasting of a same-shaped noise array. -/
def mapIdx2 (f : ℕ → ℕ → ℤ → ℤ) (m : List (List ℤ)) : List (List ℤ) :=
  m.enum.map (fun p => p.2.enum.map (fun q => f p.1 q.1 q.2))

/-- Shape of an integer matrix: row count and width of the first row. -/
def matShape (m : List (List ℤ)) : ℕ × ℕ :=
  (m.length, (m.headD []).length)

/-- A noise array drawn by `np.random.randint(lo, hi + 1, size=shape)`:
every entry lies in `[lo, hi]`. -/
def NoiseInRange (lo hi : ℤ) (noise : ℕ → ℕ → ℤ) : Prop :=
  ∀ i j, lo ≤ noise i j ∧ noise i j ≤ hi

/-- Embedding of `FHESimulator.encrypt`: add the drawn integer noise
(`np.random.randint(-2, 3, ...)`, passed here explicitly) elementwise and
return the obfuscated matrix with its metadata. -/
def encrypt (data : List (List ℤ)) (noise : ℕ → ℕ → ℤ) :
    List (List ℤ) × EncMetadata :=
  (mapIdx2 (fun i j x => x + noise i j) data,
   ⟨matShape data, "simulated"⟩)

/-- Embedding of `FHESimulator.decrypt`: subtract a freshly drawn integer
noise array (`np.random.randint(-2, 3, ...)`, passed here explicitly) from
the input; the metadata argument is accepted but unused, as in the source. -/
def decrypt (encrypted : List (List ℤ)) (meta : EncMetadata)
    (noise : ℕ → ℕ → ℤ) : List (List ℤ) :=
  mapIdx2 (fun i j x => x - noise i j) encrypted

/-- Embedding of `FHESimulator.compute_on_encrypted`: for the operation
`"predict"`, sum each row (keepdims, so each row becomes a singleton) and add
drawn noise (`np.random.randint(-1, 2, ...)`); any other operation returns the
data unchanged. -/
def compute_on_encrypted (encrypted_data : List (List ℤ)) (operation : String)
    (noise : ℕ → ℕ → ℤ) : List (List ℤ) :=
  if operation = "predict" then
    mapIdx2 (fun i j x => x + noise i j)
      (encrypted_data.map (fun row => [row.sum]))
  else
    encrypted_data

/-- Embedding of `simulate_fhe_prediction`: run the five demonstration
stages (quantize, encrypt, compute on encrypted, decrypt, dequantize) on the
input, then return the model's prediction computed directly on the clear
input `X`.  The three noise draws of the pipeline are passed explicitly. -/
def simulate_fhe_prediction (nbits : ℕ) (model : List (List ℚ) → List ℤ)
    (X : List (List ℚ)) (noiseEnc noiseComp noiseDec : ℕ → ℕ → ℤ) : List ℤ :=
  let step1 := quantize nbits X
  let quantized := step1.1
  let dmin := step1.2.1
  let dmax := step1.2.2
  let step2 := encrypt quantized noiseEnc
  let encrypted := step2.1
  let metadata := step2.2
  let encrypted_result := compute_on_encrypted encrypted "predict" noiseComp
  let decrypted := decrypt encrypted_result metadata noiseDec
  let dequantized := dequantize nbits decrypted dmin dmax
  let prediction := model X
  prediction

/-- Split a text at whitespace, keeping empty segments, as the first phase of
Python `str.split()` (texts are embedded as `List Char`). -/
def rawSplit (s : List Char) : List (List Char) :=
  s.foldr
    (fun c acc =>
      if c.isWhitespace then [] :: acc
      else (c :: acc.headD []) :: acc.tail)
    [[]]

/-- Python `text.split()` with no separator: split at whitespace runs and
discard the empty segments. -/
def pySplit (s : List Char) : List (List Char) :=
  (rawSplit s).filter (fun w => ¬ w.isEmpty)

/-- Python `text.strip()`: drop leading and trailing whitespace. -/
def pyStrip (s : List Char) : List Char :=
  ((s.dropWhile Char.isWhitespace).reverse.dropWhile Char.isWhitespace).reverse

/-- Python `" ".join(chunks)`: interleave a single space between chunks. -/
def pyJoinSpace : List (List Char) → List Char
  | [] => []
  | [w] => w
  | w :: r :: rest => w ++ ' ' :: pyJoinSpace (r :: rest)

/-- Normalization of one text inside `TextProcessor.text_to_tensor`:
collapse whitespace runs via `" ".join(text.split())`, then substitute the
single-space placeholder when the result is empty after trimming. -/
def normalizeText (s : List Char) : List Char :=
  let joined := pyJoinSpace (pySplit s)
  if (pyStrip joined).length = 0 then [' '] else joined

/-- Element of a Python text list: either a proper string or a non-string
object carrying the string `str(obj)` would render it to. -/
inductive PyObj where
  | PyStr (s : List Char)
  | PyOther (rendered : List Char)
deriving DecidableEq

/-- Coercion `str(text)` applied by `text_to_tensor` to non-string inputs. -/
def pyToStr : PyObj → List Char
  | .PyStr s => s
  | .PyOther r => r

/-- Input normalization of `TextProcessor.text_to_tensor`: coerce each
element to a string and normalize it. -/
def normalizedTexts (texts : List PyObj) : List (List Char) :=
  texts.map (fun t => normalizeText (pyToStr t))

/-- Python list indexing `l[i]` for `int` indices: negative indices count
from the end; out-of-range access raises `IndexError`, embedded as `none`. -/
def pyListGet (l : List String) (i : ℤ) : Option String :=
  let j : ℤ := if i < 0 then (l.length : ℤ) + i else i
  if h : 0 ≤ j ∧ j < (l.length : ℤ) then some (l.getD j.toNat "") else none

/-- The sentiment label expression of `analyze_sentiment_detailed`:
`sentiment_labels[sentiment_idx] if sentiment_idx < len(sentiment_labels)
else "Unknown"` with `sentiment_labels = ["Negative", "Positive"]`.
`none` embeds an `IndexError` raised by the Python indexing. -/
def sentimentOf (sentiment_idx : ℤ) : Option String :=
  if sentiment_idx < 2 then pyListGet ["Negative", "Positive"] sentiment_idx
  else some "Unknown"

/-- One record of `stats["predictions_history"]`. -/
structure HistEntry where
  text : List Char
  sentiment : String
  confidence : ℚ
  timestamp : String
deriving DecidableEq

/-- The global `stats` dictionary of `client.py`. -/
structure Stats where
  total_predictions : ℕ
  negative_count : ℕ
  positive_count : ℕ
  avg_confidence : ℚ
  total_processing_time : ℚ
  predictions_history : List HistEntry
deriving DecidableEq

/-- The initial value of the global `stats` dictionary. -/
def initStats : Stats := ⟨0, 0, 0, 0, 0, []⟩

/-- The classifier capability seen by `analyze_sentiment_detailed` on a given
input: `int(model_api.predict(X)[0])`, and the first row of
`model_api.predict_proba(X)` when that attribute exists and the call
succeeds (`none` embeds absence or an exception, both of which the source
maps to the same fallback). -/
structure ClassifierModel where
  predictOut : ℤ
  predictProba : Option (List ℚ)
deriving DecidableEq

/-- Ambient state of one `analyze_sentiment_detailed` call: whether the
processor is loaded, the model capability (if loaded), the wall-clock
duration the prediction will take, and the formatted current time. -/
structure AnalyzeEnv where
  processorLoaded : Bool
  modelApi : Option ClassifierModel
  predTime : ℚ
  timestamp : String

/-- Observable outcome of one `analyze_sentiment_detailed` call:
the `steps["error"]` field, and the sentiment label, confidence and
probabilities when the branch reached them. -/
structure AnalyzeResult where
  error : Option String
  sentiment : Option String
  confidence : ℚ
  probaNegative : ℚ
  probaPositive : ℚ
deriving DecidableEq

/-- Probability extraction shared by both branches:
`proba[0][0] if len(proba[0]) > 0 else 0.0`, same for index 1, confidence
`max * 100`; the fallback on a missing or failing `predict_proba` is
`(0, 0, 0)`. -/
def confidenceOf : Option (List ℚ) → ℚ × ℚ × ℚ
  | none => (0, 0, 0)
  | some row => (row.getD 0 0, row.getD 1 0, max (row.getD 0 0) (row.getD 1 0) * 100)

/-- History-entry text truncation: `text[:50] + "..." if len(text) > 50`. -/
def truncText (t : List Char) : List Char :=
  if t.length > 50 then t.take 50 ++ ("...".toList) else t

/-- Append to `predictions_history` then `pop(0)` when the length
exceeds 10. -/
def pushHistory (h : List HistEntry) (e : HistEntry) : List HistEntry :=
  let grown := h ++ [e]
  if grown.length > 10 then grown.tail else grown

/-- Statistics update of the privacy-mode (`use_fhe`) branch: increment the
total and the per-label counter, update the running average confidence,
accumulate the processing time, and push a truncated history record. -/
def updateStatsFhe (s : Stats) (idx : ℤ) (sentiment : String) (conf : ℚ)
    (ptime : ℚ) (text : List Char) (ts : String) : Stats :=
  let total := s.total_predictions + 1
  { total_predictions := total
    negative_count := if idx = 0 then s.negative_count + 1 else s.negative_count
    positive_count := if idx = 0 then s.positive_count else s.positive_count + 1
    avg_confidence := (s.avg_confidence * ((total : ℚ) - 1) + conf) / (total : ℚ)
    total_processing_time := s.total_processing_time + ptime
    predictions_history :=
      pushHistory s.predictions_history ⟨truncText text, sentiment, conf, ts⟩ }

/-- Statistics update of the clear-mode branch: increment the total and the
per-label counter and update the running average confidence; the source does
not accumulate processing time and pushes no history record here. -/
def updateStatsClear (s : Stats) (idx : ℤ) (conf : ℚ) : Stats :=
  let total := s.total_predictions + 1
  { total_predictions := total
    negative_count := if idx = 0 then s.negative_count + 1 else s.negative_count
    positive_count := if idx = 0 then s.positive_count else s.positive_count + 1
    avg_confidence := (s.avg_confidence * ((total : ℚ) - 1) + conf) / (total : ℚ)
    total_processing_time := s.total_processing_time
    predictions_history := s.predictions_history }

/-- Embedding of `analyze_sentiment_detailed` together with its effect on the
global `stats`: processor check, empty-text check, trim, model check, then
the privacy-mode or clear-mode branch.  A `none` from `sentimentOf` is a
Python `IndexError`: the privacy-mode branch catches it into
`steps["error"]`, the clear-mode branch catches it into the displayed text
only; in both cases the statistics are untouched. -/
def analyze (env : AnalyzeEnv) (text : List Char) (use_fhe : Bool)
    (s : Stats) : AnalyzeResult × Stats :=
  if env.processorLoaded = false then
    (⟨some "Error: Processor not loaded. Please train the model first.", none, 0, 0, 0⟩, s)
  else if (pyStrip text).length = 0 then
    (⟨some "Please enter a text to analyze.", none, 0, 0, 0⟩, s)
  else
    let text := pyStrip text
    match env.modelApi with
    | none =>
      (⟨some "ERROR: Model not loaded. Please restart the client.", none, 0, 0, 0⟩, s)
    | some model =>
      if use_fhe then
        match sentimentOf model.predictOut with
        | none => (⟨some "Prediction Error: IndexError", none, 0, 0, 0⟩, s)
        | some sent =>
          let probs := confidenceOf model.predictProba
          (⟨none, some sent, probs.2.2, probs.1, probs.2.1⟩,
           updateStatsFhe s model.predictOut sent probs.2.2 env.predTime text
             env.timestamp)
      else
        match sentimentOf model.predictOut with
        | none => (⟨none, none, 0, 0, 0⟩, s)
        | some sent =>
          let probs := confidenceOf model.predictProba
          (⟨none, some sent, probs.2.2, probs.1, probs.2.1⟩,
           updateStatsClear s model.predictOut probs.2.2)

/-! ## Theorems -/

/-- C1: for every model, input matrix and realization of the three noise
draws of the simulated pipeline, `simulate_fhe_prediction` returns exactly
the model's prediction on the clear input, and two runs differing only in
the pipeline noise return the same prediction. -/
theorem c1_simulation_returns_clear_prediction
    (nbits : ℕ) (model : List (List ℚ) → List ℤ) (X : List (List ℚ))
    (n1 n2 n3 m1 m2 m3 : ℕ → ℕ → ℤ) :
    simulate_fhe_prediction nbits model X n1 n2 n3 = model X ∧
    simulate_fhe_prediction nbits model X n1 n2 n3
      = simulate_fhe_prediction nbits model X m1 m2 m3 :=
  ⟨rfl, rfl⟩

/-- C10: for every integer matrix and every operation string other than
`"predict"`, `compute_on_encrypted` returns the data unchanged, for every
noise realization. -/
theorem c10_non_predict_is_identity (d : List (List ℤ)) (op : String)
    (noise : ℕ → ℕ → ℤ) (h : op ≠ "predict") :
    compute_on_encrypted d op noise = d := by
  simp [compute_on_encrypted, h]

/-- Witness for C10 at the operation `"add"` on a concrete matrix. -/
theorem c10_witness :
    ("add" ≠ "predict") ∧
    compute_on_encrypted [[1, 2], [3, 4]] "add" (fun _ _ => 1) = [[1, 2], [3, 4]] :=
  ⟨by decide, c10_non_predict_is_identity [[1, 2], [3, 4]] "add" (fun _ _ => 1) (by decide)⟩

/-- C7: `decrypt` subtracts the freshly drawn noise passed to it from its
input (independent of whatever noise `encrypt` added), and consequently
there are an input and two legal noise realizations (both inside the
`randint(-2, 3)` range) for which `decrypt (encrypt x)` differs from `x`. -/
theorem c7_decrypt_not_inverse_of_encrypt :
    (∀ (e : List (List ℤ)) (meta : EncMetadata) (noise : ℕ → ℕ → ℤ),
      decrypt e meta noise = mapIdx2 (fun i j x => x - noise i j) e) ∧
    ∃ (x : List (List ℤ)) (nEnc nDec : ℕ → ℕ → ℤ),
      NoiseInRange (-2) 2 nEnc ∧ NoiseInRange (-2) 2 nDec ∧
      decrypt (encrypt x nEnc).1 (encrypt x nEnc).2 nDec ≠ x := by
  refine ⟨fun e meta noise => rfl,
    [[0]], fun _ _ => 1, fun _ _ => 0, fun i j => by norm_num,
    fun i j => by norm_num, by decide⟩

/-- C5: whenever the input text is empty or whitespace-only after trimming,
the analyze operation returns an error result and leaves the statistics
record completely unchanged. -/
theorem c5_blank_text_error_stats_unchanged
    (env : AnalyzeEnv) (text : List Char) (use_fhe : Bool) (s : Stats)
    (h : (pyStrip text).length = 0) :
    (∃ msg, (analyze env text use_fhe s).1.error = some msg) ∧
    (analyze env text use_fhe s).2 = s := by
  unfold analyze
  by_cases hp : env.processorLoaded = false
  · simp [hp]
  · simp [hp, h]

/-- Witness for C5 at a whitespace-only text. -/
theorem c5_witness :
    (pyStrip "   ".toList).length = 0 ∧
    ((∃ msg,
        (analyze ⟨true, some ⟨1, some [1/4, 3/4]⟩, 1, "t"⟩ "   ".toList true
            initStats).1.error = some msg) ∧
      (analyze ⟨true, some ⟨1, some [1/4, 3/4]⟩, 1, "t"⟩ "   ".toList true
          initStats).2 = initStats) :=
  ⟨by decide,
   c5_blank_text_error_stats_unchanged ⟨true, some ⟨1, some [1/4, 3/4]⟩, 1, "t"⟩
     "   ".toList true initStats (by decide)⟩

/-- C3 counterexample: the classifier output `-1` is mapped to `Positive`
(Python negative indexing), not preserved as `Unknown` as the claim states. -/
theorem c3_counterexample :
    sentimentOf (-1) = some "Positive" ∧ sentimentOf (-1) ≠ some "Unknown" := by
  decide

/-- C3 amended: the analyze operation maps classifier output `0` to
`Negative`, `1` to `Positive` and every value `≥ 2` to `Unknown`; negative
outputs are resolved by Python negative indexing (`-1 → Positive`,
`-2 → Negative`) and any output `≤ -3` raises an `IndexError` instead of a
label.  The mapping is independent of whether `predict_proba` is available. -/
theorem c3_amended_label_mapping :
    sentimentOf 0 = some "Negative" ∧
    sentimentOf 1 = some "Positive" ∧
    (∀ idx : ℤ, 2 ≤ idx → sentimentOf idx = some "Unknown") ∧
    sentimentOf (-1) = some "Positive" ∧
    sentimentOf (-2) = some "Negative" ∧
    (∀ idx : ℤ, idx ≤ -3 → sentimentOf idx = none) ∧
    (∀ (env : AnalyzeEnv) (text : List Char) (use_fhe : Bool) (s : Stats)
        (idx : ℤ) (p q : Option (List ℚ)),
      (analyze { env with modelApi := some ⟨idx, p⟩ } text use_fhe s).1.sentiment
        = (analyze { env with modelApi := some ⟨idx, q⟩ } text use_fhe s).1.sentiment) := by
  refine ⟨by decide, by decide, ?_, by decide, by decide, ?_, ?_⟩
  · intro idx hidx
    unfold sentimentOf
    rw [if_neg (by omega)]
  · intro idx hidx
    unfold sentimentOf pyListGet
    rw [if_pos (by omega)]
    simp only [List.length_cons, List.length_nil]
    rw [dif_neg (by omega)]
  · intro env text use_fhe s idx p q
    unfold analyze
    by_cases hp : env.processorLoaded = false
    · simp [hp]
    · by_cases ht : (pyStrip text).length = 0
      · simp [hp, ht]
      · cases hs : sentimentOf idx with
        | none => cases use_fhe <;> simp [hp, ht, hs]
        | some sent => cases use_fhe <;> simp [hp, ht, hs]

/-- Witness for C3 (amended) at the outputs `5` and `-4`. -/
theorem c3_amended_witness :
    ((2 : ℤ) ≤ 5 ∧ sentimentOf 5 = some "Unknown") ∧
    ((-4 : ℤ) ≤ -3 ∧ sentimentOf (-4) = none) :=
  ⟨⟨by norm_num, c3_amended_label_mapping.2.2.1 5 (by norm_num)⟩,
   ⟨by norm_num, c3_amended_label_mapping.2.2.2.2.2.1 (-4) (by norm_num)⟩⟩

/-- C6 counterexample: on the constant matrix `[[2, 2]]` with the default
`n_bits = 3`, `quantize` returns `[[14, 14]]` — the bypassed values are
multiplied by the scale `7` before the integer cast, not cast directly as
the claim states (`truncToZero 2 = 2`). -/
theorem c6_counterexample :
    matMax [[(2 : ℚ), 2]] = matMin [[(2 : ℚ), 2]] ∧
    (quantize 3 [[(2 : ℚ), 2]]).1 = [[14, 14]] ∧
    (quantize 3 [[(2 : ℚ), 2]]).1 ≠ [[truncToZero 2, truncToZero 2]] := by
  have hmin : matMin [[(2 : ℚ), 2]] = 2 := by decide
  have hmax : matMax [[(2 : ℚ), 2]] = 2 := by decide
  have helem : quantizeElemConst 3 (2 : ℚ) = 14 := by
    norm_num [quantizeElemConst, qscaleQ, qscale, truncToZero, toInt32]
  have hq : (quantize 3 [[(2 : ℚ), 2]]).1 = [[14, 14]] := by
    unfold quantize
    rw [hmin, hmax, if_neg (by norm_num)]
    simp [matMap, helem]
  refine ⟨by rw [hmin, hmax], hq, ?_⟩
  rw [hq]
  have ht : truncToZero (2 : ℚ) = 2 := by norm_num [truncToZero]
  rw [ht]
  decide

/-- C6 amended: for every matrix with `data_max == data_min`, `quantize`
takes the branch without the division, and returns the bypassed
(unnormalized) values multiplied by the quantization scale and cast to the
integer type, together with `data_min` and `data_max`. -/
theorem c6_amended_constant_branch (nbits : ℕ) (m : List (List ℚ))
    (h : matMax m = matMin m) :
    quantize nbits m
      = (matMap (quantizeElemConst nbits) m, matMin m, matMax m) := by
  unfold quantize
  rw [h]
  simp

/-! Helper lemmas for the quantization round-trip bound. -/

/-- Flooring `y / d * S` and mapping back through the affine range loses at
most `d / S`. -/
lemma floor_scale_bound (S d y : ℚ) (hS : 1 ≤ S) (hd : 0 < d) :
    |(⌊y / d * S⌋ : ℚ) / S * d - y| ≤ d / S := by
  have hS0 : (0:ℚ) < S := by linarith
  set u : ℚ := y / d * S with hu_def
  have hfle : (⌊u⌋ : ℚ) ≤ u := Int.floor_le _
  have hflt : u - 1 < (⌊u⌋ : ℚ) := Int.sub_one_lt_floor _
  have hu : u * d = y * S := by
    rw [hu_def]; field_simp
  have hrew : (⌊u⌋ : ℚ) / S * d - y = ((⌊u⌋ : ℚ) * d - y * S) / S := by
    field_simp
    ring
  rw [hrew, abs_div, abs_of_pos hS0]
  have hFd_le : (⌊u⌋ : ℚ) * d ≤ u * d := mul_le_mul_of_nonneg_right hfle hd.le
  have hFd_gt : (u - 1) * d < (⌊u⌋ : ℚ) * d := mul_lt_mul_of_pos_right hflt hd
  have habs : |(⌊u⌋ : ℚ) * d - y * S| ≤ d := by
    rw [abs_le]
    constructor <;> nlinarith [hu]
  gcongr

/-- The quantization scale is at least `1` as soon as `n_bits ≥ 1`. -/
lemma qscaleQ_one_le (nbits : ℕ) (h1 : 1 ≤ nbits) : (1:ℚ) ≤ qscaleQ nbits := by
  unfold qscaleQ qscale
  have h2 : (2:ℤ) ^ 1 ≤ 2 ^ nbits := pow_le_pow_right₀ (by norm_num) h1
  have h3 : (2:ℤ) ≤ 2 ^ nbits := by simpa using h2
  push_cast
  have h4 : (2:ℚ) ≤ (2:ℚ) ^ nbits := by exact_mod_cast h3
  linarith

/-- For an in-range element and `1 ≤ n_bits ≤ 31`, the truncation is a plain
floor and the int32 wrap is the identity. -/
lemma quantizeElemND_eq_floor (nbits : ℕ) (dmin dmax x : ℚ)
    (h1 : 1 ≤ nbits) (h31 : nbits ≤ 31)
    (hlo : dmin ≤ x) (hhi : x ≤ dmax) (hnd : dmin < dmax) :
    quantizeElemND nbits dmin dmax x
      = ⌊(x - dmin) / (dmax - dmin) * qscaleQ nbits⌋ := by
  have hd : (0:ℚ) < dmax - dmin := sub_pos.mpr hnd
  have hS1 : (1:ℚ) ≤ qscaleQ nbits := qscaleQ_one_le nbits h1
  have hS0 : (0:ℚ) < qscaleQ nbits := by linarith
  set u : ℚ := (x - dmin) / (dmax - dmin) * qscaleQ nbits with hu_def
  have hu0 : 0 ≤ u := by
    rw [hu_def]
    exact mul_nonneg (div_nonneg (by linarith) hd.le) hS0.le
  have huS : u ≤ qscaleQ nbits := by
    rw [hu_def]
    have ht1 : (x - dmin) / (dmax - dmin) ≤ 1 := (div_le_one hd).mpr (by linarith)
    nlinarith
  have hfl0 : 0 ≤ ⌊u⌋ := Int.floor_nonneg.mpr hu0
  have hflS : ⌊u⌋ ≤ 2 ^ 31 - 1 := by
    have ha : ⌊u⌋ ≤ ⌊qscaleQ nbits⌋ := Int.floor_le_floor huS
    have hb : ⌊qscaleQ nbits⌋ = qscale nbits := Int.floor_intCast _
    have hc : qscale nbits ≤ 2 ^ 31 - 1 := by
      unfold qscale
      have : (2:ℤ) ^ nbits ≤ 2 ^ 31 := pow_le_pow_right₀ (by norm_num) h31
      omega
    omega
  unfold quantizeElemND
  rw [← hu_def]
  rw [truncToZero, if_pos hu0]
  unfold toInt32
  have : (⌊u⌋ + 2 ^ 31) % 2 ^ 32 = ⌊u⌋ + 2 ^ 31 :=
    Int.emod_eq_of_lt (by omega) (by omega)
  omega

/-- Elementwise round-trip error bound for the non-degenerate branch. -/
lemma dequant_quant_elem_bound (nbits : ℕ) (dmin dmax x : ℚ)
    (h1 : 1 ≤ nbits) (h31 : nbits ≤ 31)
    (hlo : dmin ≤ x) (hhi : x ≤ dmax) (hnd : dmin < dmax) :
    |dequantElem nbits dmin dmax (quantizeElemND nbits dmin dmax x) - x|
      ≤ (dmax - dmin) / qscaleQ nbits := by
  have hd : (0:ℚ) < dmax - dmin := sub_pos.mpr hnd
  have hS1 : (1:ℚ) ≤ qscaleQ nbits := qscaleQ_one_le nbits h1
  rw [quantizeElemND_eq_floor nbits dmin dmax x h1 h31 hlo hhi hnd]
  have hb := floor_scale_bound (qscaleQ nbits) (dmax - dmin) (x - dmin) hS1 hd
  unfold dequantElem
  have hrw : ((⌊(x - dmin) / (dmax - dmin) * qscaleQ nbits⌋ : ℚ) / qscaleQ nbits
      * (dmax - dmin) + dmin - x)
      = ((⌊(x - dmin) / (dmax - dmin) * qscaleQ nbits⌋ : ℚ) / qscaleQ nbits
      * (dmax - dmin) - (x - dmin)) := by ring
  rw [hrw]
  exact hb

/-- Folding `min` over a list stays below the seed and every element. -/
lemma foldl_min_le (xs : List ℚ) (a : ℚ) :
    xs.foldl min a ≤ a ∧ ∀ y ∈ xs, xs.foldl min a ≤ y := by
  induction xs generalizing a with
  | nil => exact ⟨le_refl a, by simp⟩
  | cons x t ih =>
    refine ⟨(ih (min a x)).1.trans (min_le_left a x), ?_⟩
    intro y hy
    rcases List.mem_cons.mp hy with h | h
    · subst h
      exact (ih (min a y)).1.trans (min_le_right a y)
    · exact (ih (min a x)).2 y h

/-- Folding `max` over a list stays above the seed and every element. -/
lemma le_foldl_max (xs : List ℚ) (a : ℚ) :
    a ≤ xs.foldl max a ∧ ∀ y ∈ xs, y ≤ xs.foldl max a := by
  induction xs generalizing a with
  | nil => exact ⟨le_refl a, by simp⟩
  | cons x t ih =>
    refine ⟨(le_max_left a x).trans (ih (max a x)).1, ?_⟩
    intro y hy
    rcases List.mem_cons.mp hy with h | h
    · subst h
      exact (le_max_right a y).trans (ih (max a y)).1
    · exact (ih (max a x)).2 y h

/-- The matrix minimum bounds every element from below. -/
lemma matMin_le_mem {m : List (List ℚ)} {x : ℚ} (hx : x ∈ m.flatten) :
    matMin m ≤ x := by
  unfold matMin
  cases hfl : m.flatten with
  | nil => rw [hfl] at hx; cases hx
  | cons a t =>
    rw [hfl] at hx
    rcases List.mem_cons.mp hx with h | h
    · subst h; exact (foldl_min_le t x).1
    · exact (foldl_min_le t a).2 x h

/-- The matrix maximum bounds every element from above. -/
lemma mem_le_matMax {m : List (List ℚ)} {x : ℚ} (hx : x ∈ m.flatten) :
    x ≤ matMax m := by
  unfold matMax
  cases hfl : m.flatten with
  | nil => rw [hfl] at hx; cases hx
  | cons a t =>
    rw [hfl] at hx
    rcases List.mem_cons.mp hx with h | h
    · subst h; exact (le_foldl_max t x).1
    · exact (le_foldl_max t a).2 x h

/-- An in-bounds `mGet` element belongs to the flattened matrix. -/
lemma elem_mem_flatten (m : List (List ℚ)) (i j : ℕ)
    (hi : i < m.length) (hj : j < (m.getD i []).length) :
    mGet m i j ∈ m.flatten := by
  apply List.mem_flatten.mpr
  refine ⟨m.getD i [], ?_, ?_⟩
  · rw [List.getD_eq_getElem _ _ hi]
    exact List.getElem_mem hi
  · unfold mGet
    rw [List.getD_eq_getElem _ _ hj]
    exact List.getElem_mem hj

/-- `quantize` in the non-degenerate branch. -/
lemma quantize_pos_eq (nbits : ℕ) (m : List (List ℚ))
    (hc : matMax m - matMin m > 0) :
    quantize nbits m
      = (matMap (quantizeElemND nbits (matMin m) (matMax m)) m,
         matMin m, matMax m) := by
  simp only [quantize]
  rw [if_pos hc]

/-- `quantize` in the degenerate branch. -/
lemma quantize_nonpos_eq (nbits : ℕ) (m : List (List ℚ))
    (hc : ¬ matMax m - matMin m > 0) :
    quantize nbits m
      = (matMap (quantizeElemConst nbits) m, matMin m, matMax m) := by
  simp only [quantize]
  rw [if_neg hc]

/-- Indexing through `dequantize ∘ matMap` is the elementwise composite. -/
lemma deq_matMap_getD (nbits : ℕ) (f : ℚ → ℤ) (dmin dmax : ℚ)
    (m : List (List ℚ)) (i j : ℕ)
    (hi : i < m.length) (hj : j < (m.getD i []).length) :
    ((dequantize nbits (matMap f m) dmin dmax).getD i []).getD j 0
      = dequantElem nbits dmin dmax (f (mGet m i j)) := by
  unfold dequantize matMap mGet
  rw [List.map_map]
  have hi' : i < (m.map ((fun row => row.map (dequantElem nbits dmin dmax))
      ∘ (fun row => row.map f))).length := by simpa using hi
  rw [List.getD_eq_getElem _ _ hi', List.getElem_map]
  simp only [Function.comp, List.map_map]
  rw [List.getD_eq_getElem _ _ hi] at hj ⊢
  have hj' : j < (m[i].map (dequantElem nbits dmin dmax ∘ f)).length := by
    simpa using hj
  rw [List.getD_eq_getElem _ _ hj', List.getElem_map]
  rw [List.getD_eq_getElem _ _ hj]
  rfl

/-- Shared matrix-level round-trip bound for the non-degenerate branch. -/
lemma roundtrip_bound_aux (nbits : ℕ) (m : List (List ℚ)) (i j : ℕ)
    (h1 : 1 ≤ nbits) (h31 : nbits ≤ 31)
    (hi : i < m.length) (hj : j < (m.getD i []).length)
    (hnd : matMin m < matMax m) :
    |roundtripElem nbits m i j - mGet m i j|
      ≤ (matMax m - matMin m) / qscaleQ nbits := by
  have hc : matMax m - matMin m > 0 := sub_pos.mpr hnd
  unfold roundtripElem
  rw [quantize_pos_eq nbits m hc]
  dsimp only
  rw [deq_matMap_getD nbits _ _ _ m i j hi hj]
  exact dequant_quant_elem_bound nbits (matMin m) (matMax m) (mGet m i j)
    h1 h31 (matMin_le_mem (elem_mem_flatten m i j hi hj))
    (mem_le_matMax (elem_mem_flatten m i j hi hj)) hnd

/-- C2: for a matrix with `1 ≤ n_bits ≤ 8` and a non-degenerate range, every
element of the round trip `dequantize(quantize(x))` is within
`(max - min) / scale` of the original element; for a matrix with degenerate
range (`min = max`, in particular any constant matrix) the round trip is
exact. -/
theorem c2_roundtrip_quantization (nbits : ℕ) (m : List (List ℚ)) (i j : ℕ)
    (h1 : 1 ≤ nbits) (h8 : nbits ≤ 8)
    (hi : i < m.length) (hj : j < (m.getD i []).length) :
    (matMin m < matMax m →
      |roundtripElem nbits m i j - mGet m i j|
        ≤ (matMax m - matMin m) / qscaleQ nbits) ∧
    (matMin m = matMax m → roundtripElem nbits m i j = mGet m i j) := by
  constructor
  · intro hnd
    exact roundtrip_bound_aux nbits m i j h1 (by omega) hi hj hnd
  · intro heq
    have hc : ¬ matMax m - matMin m > 0 := by rw [← heq]; simp
    unfold roundtripElem
    rw [quantize_nonpos_eq nbits m hc]
    dsimp only
    rw [deq_matMap_getD nbits _ _ _ m i j hi hj]
    have hx1 : matMin m ≤ mGet m i j := matMin_le_mem (elem_mem_flatten m i j hi hj)
    have hx2 : mGet m i j ≤ matMax m := mem_le_matMax (elem_mem_flatten m i j hi hj)
    have hxeq : mGet m i j = matMin m := le_antisymm (heq ▸ hx2) hx1
    unfold dequantElem
    rw [← heq, hxeq]
    ring

/-- Witness for C2: the non-degenerate bound at `[[0, 1, 10]]`, element
`(0, 1)`, and exactness at the constant matrix `[[2, 2]]`. -/
theorem c2_witness :
    ((1 ≤ 3 ∧ 3 ≤ 8 ∧ 0 < [[(0:ℚ), 1, 10]].length
        ∧ 1 < ([[(0:ℚ), 1, 10]].getD 0 []).length
        ∧ matMin [[(0:ℚ), 1, 10]] < matMax [[(0:ℚ), 1, 10]]) ∧
      |roundtripElem 3 [[(0:ℚ), 1, 10]] 0 1 - mGet [[(0:ℚ), 1, 10]] 0 1|
        ≤ (matMax [[(0:ℚ), 1, 10]] - matMin [[(0:ℚ), 1, 10]]) / qscaleQ 3) ∧
    ((matMin [[(2:ℚ), 2]] = matMax [[(2:ℚ), 2]]) ∧
      roundtripElem 3 [[(2:ℚ), 2]] 0 1 = mGet [[(2:ℚ), 2]] 0 1) :=
  ⟨⟨by decide,
    (c2_roundtrip_quantization 3 [[(0:ℚ), 1, 10]] 0 1 (by decide) (by decide)
      (by decide) (by decide)).1 (by decide)⟩,
   ⟨by decide,
    (c2_roundtrip_quantization 3 [[(2:ℚ), 2]] 0 1 (by decide) (by decide)
      (by decide) (by decide)).2 (by decide)⟩⟩

/-- C8 counterexample: on `[[0, 1, 10]]` with `n_bits = 3` the element at
`(0, 1)` comes back as `0`, an absolute error of `1`, which exceeds the
claimed bound `1 / scale = 1 / 7`. -/
theorem c8_counterexample :
    matMin [[(0:ℚ), 1, 10]] < matMax [[(0:ℚ), 1, 10]] ∧
    ¬ (|roundtripElem 3 [[(0:ℚ), 1, 10]] 0 1 - mGet [[(0:ℚ), 1, 10]] 0 1|
        ≤ 1 / qscaleQ 3) := by
  have hmin : matMin [[(0:ℚ), 1, 10]] = 0 := by decide
  have hmax : matMax [[(0:ℚ), 1, 10]] = 10 := by decide
  refine ⟨by rw [hmin, hmax]; norm_num, ?_⟩
  have hc : matMax [[(0:ℚ), 1, 10]] - matMin [[(0:ℚ), 1, 10]] > 0 := by
    rw [hmin, hmax]; norm_num
  unfold roundtripElem
  rw [quantize_pos_eq _ _ hc]
  dsimp only
  rw [deq_matMap_getD 3 _ _ _ _ 0 1 (by decide) (by decide)]
  have h3 : mGet [[(0:ℚ), 1, 10]] 0 1 = 1 := by decide
  rw [h3, hmin, hmax]
  norm_num [quantizeElemND, dequantElem, qscaleQ, qscale, truncToZero, toInt32]

/-- C8 amended: for every matrix with non-degenerate range and every
`1 ≤ n_bits ≤ 31` (so that the quantized values fit int32), each element of
`dequantize(quantize(x))` differs from the original element by at most
`(max - min) / scale` in absolute value — not `1 / scale` as claimed. -/
theorem c8_amended_roundtrip_bound (nbits : ℕ) (m : List (List ℚ)) (i j : ℕ)
    (h1 : 1 ≤ nbits) (h31 : nbits ≤ 31)
    (hi : i < m.length) (hj : j < (m.getD i []).length)
    (hnd : matMin m < matMax m) :
    |roundtripElem nbits m i j - mGet m i j|
      ≤ (matMax m - matMin m) / qscaleQ nbits :=
  roundtrip_bound_aux nbits m i j h1 h31 hi hj hnd

/-- Witness for C8 (amended) at `[[0, 1, 10]]`, element `(0, 2)`. -/
theorem c8_amended_witness :
    (1 ≤ 3 ∧ 3 ≤ 31 ∧ 0 < [[(0:ℚ), 1, 10]].length
      ∧ 2 < ([[(0:ℚ), 1, 10]].getD 0 []).length
      ∧ matMin [[(0:ℚ), 1, 10]] < matMax [[(0:ℚ), 1, 10]]) ∧
    |roundtripElem 3 [[(0:ℚ), 1, 10]] 0 2 - mGet [[(0:ℚ), 1, 10]] 0 2|
      ≤ (matMax [[(0:ℚ), 1, 10]] - matMin [[(0:ℚ), 1, 10]]) / qscaleQ 3 :=
  ⟨by decide,
   c8_amended_roundtrip_bound 3 [[(0:ℚ), 1, 10]] 0 2 (by decide) (by decide)
     (by decide) (by decide) (by decide)⟩

/-- Witness for C6 (amended) on the constant matrix `[[2, 2]]`. -/
theorem c6_amended_witness :
    matMax [[(2 : ℚ), 2]] = matMin [[(2 : ℚ), 2]] ∧
    quantize 3 [[(2 : ℚ), 2]] = ([[14, 14]], 2, 2) := by
  refine ⟨by decide, ?_⟩
  rw [c6_amended_constant_branch 3 [[(2 : ℚ), 2]] (by decide)]
  have helem : quantizeElemConst 3 (2 : ℚ) = 14 := by
    norm_num [quantizeElemConst, qscaleQ, qscale, truncToZero, toInt32]
  have hmin : matMin [[(2 : ℚ), 2]] = 2 := by decide
  have hmax : matMax [[(2 : ℚ), 2]] = 2 := by decide
  simp [matMap, helem, hmin, hmax]

/-! Helper lemmas for the embedder input normalization. -/

/-- The whitespace split keeps a non-empty list of segments, none of which
contains a whitespace character. -/
lemma rawSplit_props (s : List Char) :
    rawSplit s ≠ [] ∧ ∀ w ∈ rawSplit s, ∀ c ∈ w, ¬ c.isWhitespace = true := by
  induction s with
  | nil =>
    refine ⟨by simp [rawSplit], ?_⟩
    intro w hw c hc
    simp [rawSplit] at hw
    subst hw
    cases hc
  | cons a t ih =>
    have hfold : rawSplit (a :: t)
        = if a.isWhitespace then [] :: rawSplit t
          else (a :: (rawSplit t).headD []) :: (rawSplit t).tail := rfl
    by_cases hws : a.isWhitespace
    · rw [hfold, if_pos hws]
      refine ⟨by simp, ?_⟩
      intro w hw c hc
      rcases List.mem_cons.mp hw with h | h
      · subst h; cases hc
      · exact ih.2 w h c hc
    · rw [hfold, if_neg hws]
      refine ⟨by simp, ?_⟩
      intro w hw c hc
      rcases List.mem_cons.mp hw with h | h
      · subst h
        rcases List.mem_cons.mp hc with h2 | h2
        · subst h2; simpa using hws
        · cases hrt : rawSplit t with
          | nil => rw [hrt] at h2; cases h2
          | cons w0 ws0 =>
            rw [hrt, List.headD_cons] at h2
            exact ih.2 w0 (by rw [hrt]; exact List.mem_cons_self _ _) c h2
      · exact ih.2 w (List.mem_of_mem_tail h) c hc

/-- A list without whitespace characters has no adjacent whitespace pair. -/
lemma chainOfNoWS (l : List Char) (h : ∀ c ∈ l, ¬ c.isWhitespace = true) :
    l.Chain' (fun a b => ¬ (a.isWhitespace ∧ b.isWhitespace)) := by
  induction l with
  | nil => simp
  | cons a t ih =>
    cases t with
    | nil => simp
    | cons b t2 =>
      rw [List.chain'_cons]
      refine ⟨fun hab => h a (by simp) hab.1, ih ?_⟩
      intro c hc
      exact h c (List.mem_cons_of_mem a hc)

/-- Joining non-empty whitespace-free chunks with single spaces yields a
list whose only whitespace is the single separating space, with no two
adjacent whitespace characters and a non-whitespace head. -/
lemma pyJoin_props (chunks : List (List Char))
    (h : ∀ w ∈ chunks, w ≠ [] ∧ ∀ c ∈ w, ¬ c.isWhitespace = true) :
    (pyJoinSpace chunks).Chain' (fun a b => ¬ (a.isWhitespace ∧ b.isWhitespace)) ∧
    (∀ c ∈ pyJoinSpace chunks, c.isWhitespace → c = ' ') ∧
    (∀ hd ∈ (pyJoinSpace chunks).head?, ¬ hd.isWhitespace = true) := by
  induction chunks with
  | nil => exact ⟨by simp [pyJoinSpace], by simp [pyJoinSpace], by simp [pyJoinSpace]⟩
  | cons w rest ih =>
    cases rest with
    | nil =>
      have hw := h w (by simp)
      have heq : pyJoinSpace [w] = w := rfl
      rw [heq]
      refine ⟨chainOfNoWS w hw.2, ?_, ?_⟩
      · intro c hc hcw
        exact absurd hcw (hw.2 c hc)
      · intro hd hhd
        have hmem : hd ∈ w := by
          cases w with
          | nil => cases hhd
          | cons x xs =>
            simp only [List.head?_cons, Option.mem_def, Option.some.injEq] at hhd
            subst hhd; simp
        exact hw.2 hd hmem
    | cons r rest2 =>
      have hw := h w (by simp)
      have ihr := ih (fun w2 hw2 => h w2 (List.mem_cons_of_mem _ hw2))
      have heq : pyJoinSpace (w :: r :: rest2)
          = w ++ ' ' :: pyJoinSpace (r :: rest2) := rfl
      rw [heq]
      refine ⟨?_, ?_, ?_⟩
      · rw [List.chain'_append]
        refine ⟨chainOfNoWS w hw.2, ?_, ?_⟩
        · rw [List.chain'_cons']
          refine ⟨?_, ihr.1⟩
          intro y hy hxy
          exact ihr.2.2 y hy hxy.2
        · intro x hx y hy
          have hxw : x ∈ w := List.mem_of_mem_getLast? hx
          simp only [List.head?_cons, Option.mem_def, Option.some.injEq] at hy
          subst hy
          intro hxy
          exact hw.2 x hxw hxy.1
      · intro c hc hws
        rcases List.mem_append.mp hc with h1 | h1
        · exact absurd hws (hw.2 c h1)
        · rcases List.mem_cons.mp h1 with h2 | h2
          · exact h2
          · exact ihr.2.1 c h2 hws
      · intro hd hhd
        cases w with
        | nil => exact absurd rfl hw.1
        | cons x xs =>
          simp only [List.cons_append, List.head?_cons, Option.mem_def,
            Option.some.injEq] at hhd
          subst hhd
          exact hw.2 x (by simp)

/-- C9: the embedder's input normalization maps every element (coercing
non-strings through their string rendering) to a non-empty text in which
every whitespace character is a single plain space and no two whitespace
characters are adjacent — so every normalized text reaching the tokenizer
is non-empty with collapsed whitespace runs. -/
theorem c9_input_normalization (texts : List PyObj) :
    (normalizedTexts texts).length = texts.length ∧
    ∀ t ∈ normalizedTexts texts,
      t ≠ [] ∧ (∀ c ∈ t, c.isWhitespace → c = ' ') ∧
      t.Chain' (fun a b => ¬ (a.isWhitespace ∧ b.isWhitespace)) := by
  refine ⟨by simp [normalizedTexts], ?_⟩
  intro t ht
  rcases List.mem_map.mp ht with ⟨o, ho, rfl⟩
  simp only [normalizeText]
  by_cases hz : (pyStrip (pyJoinSpace (pySplit (pyToStr o)))).length = 0
  · rw [if_pos hz]
    refine ⟨by simp, ?_, by simp⟩
    intro c hc hw
    simp only [List.mem_singleton] at hc
    exact hc
  · rw [if_neg hz]
    have hprops : ∀ w ∈ pySplit (pyToStr o),
        w ≠ [] ∧ ∀ c ∈ w, ¬ c.isWhitespace = true := by
      intro w hw
      have hmem := List.mem_filter.mp hw
      refine ⟨?_, fun c hc => (rawSplit_props (pyToStr o)).2 w hmem.1 c hc⟩
      have h2 := hmem.2
      simp only [decide_eq_true_eq] at h2
      intro hnil
      exact h2 (by rw [hnil]; rfl)
    have hJ := pyJoin_props (pySplit (pyToStr o)) hprops
    refine ⟨?_, hJ.2.1, hJ.1⟩
    intro hnil
    apply hz
    rw [hnil]
    rfl

/-- Witness for C9 on a mixed input list: a string with whitespace runs, a
non-string element and a blank string. -/
theorem c9_witness :
    ("a b".toList ∈ normalizedTexts
      [PyObj.PyStr "  a   b ".toList, PyObj.PyOther "42".toList,
       PyObj.PyStr "".toList]) ∧
    ("a b".toList ≠ [] ∧ (∀ c ∈ "a b".toList, c.isWhitespace → c = ' ') ∧
      "a b".toList.Chain' (fun a b => ¬ (a.isWhitespace ∧ b.isWhitespace))) :=
  ⟨by decide,
   (c9_input_normalization
      [PyObj.PyStr "  a   b ".toList, PyObj.PyOther "42".toList,
       PyObj.PyStr "".toList]).2 "a b".toList (by decide)⟩

/-! Helper lemmas for the analyze statistics updates. -/

/-- Successful privacy-mode analyze call, fully evaluated. -/
lemma analyze_fhe_eval (pt : ℚ) (ts : String) (text : List Char) (s : Stats)
    (model : ClassifierModel) (sent : String)
    (ht : ¬ (pyStrip text).length = 0)
    (hs : sentimentOf model.predictOut = some sent) :
    analyze ⟨true, some model, pt, ts⟩ text true s
      = (⟨none, some sent, (confidenceOf model.predictProba).2.2,
            (confidenceOf model.predictProba).1,
            (confidenceOf model.predictProba).2.1⟩,
         updateStatsFhe s model.predictOut sent
           (confidenceOf model.predictProba).2.2 pt (pyStrip text) ts) := by
  unfold analyze
  dsimp only
  rw [if_neg (by simp), if_neg ht, hs]
  simp

/-- Successful clear-mode analyze call, fully evaluated. -/
lemma analyze_clear_eval (pt : ℚ) (ts : String) (text : List Char) (s : Stats)
    (model : ClassifierModel) (sent : String)
    (ht : ¬ (pyStrip text).length = 0)
    (hs : sentimentOf model.predictOut = some sent) :
    analyze ⟨true, some model, pt, ts⟩ text false s
      = (⟨none, some sent, (confidenceOf model.predictProba).2.2,
            (confidenceOf model.predictProba).1,
            (confidenceOf model.predictProba).2.1⟩,
         updateStatsClear s model.predictOut
           (confidenceOf model.predictProba).2.2) := by
  unfold analyze
  dsimp only
  rw [if_neg (by simp), if_neg ht, hs]
  simp

/-- C4 counterexample: a successful clear-mode analyze call (processor and
model loaded, prediction time `1`) updates the prediction counter but leaves
`total_processing_time` and `predictions_history` unchanged — contradicting
the claim that both branches accumulate processing time and push a history
record. -/
theorem c4_counterexample :
    (analyze ⟨true, some ⟨1, some [1/4, 3/4]⟩, 1, "t"⟩ "good".toList false
        initStats).1.error = none ∧
    (analyze ⟨true, some ⟨1, some [1/4, 3/4]⟩, 1, "t"⟩ "good".toList false
        initStats).1.sentiment = some "Positive" ∧
    (analyze ⟨true, some ⟨1, some [1/4, 3/4]⟩, 1, "t"⟩ "good".toList false
        initStats).2.total_predictions = 1 ∧
    (analyze ⟨true, some ⟨1, some [1/4, 3/4]⟩, 1, "t"⟩ "good".toList false
        initStats).2.total_processing_time = initStats.total_processing_time ∧
    (analyze ⟨true, some ⟨1, some [1/4, 3/4]⟩, 1, "t"⟩ "good".toList false
        initStats).2.predictions_history = initStats.predictions_history ∧
    (1 : ℚ) ≠ 0 :=
  ⟨by decide, by decide, by decide, by decide, by decide, by norm_num⟩

/-- C4 amended: on every successful analyze call with loaded processor and
model, both branches increment `total_predictions`, increment the counter
selected by the classifier output, and update the running average as
`(avg * (n - 1) + new) / n`; but only the privacy-mode branch accumulates
the processing time and pushes the truncated `(timestamp, text, label,
confidence)` record into the bounded history — the clear-mode branch leaves
`total_processing_time` and `predictions_history` unchanged. -/
theorem c4_amended_statistics_update (pt : ℚ) (ts : String) (text : List Char)
    (s : Stats) (model : ClassifierModel) (sent : String)
    (ht : ¬ (pyStrip text).length = 0)
    (hs : sentimentOf model.predictOut = some sent) :
    ((analyze ⟨true, some model, pt, ts⟩ text true s).1.error = none ∧
      (analyze ⟨true, some model, pt, ts⟩ text true s).2
        = updateStatsFhe s model.predictOut sent
            (confidenceOf model.predictProba).2.2 pt (pyStrip text) ts) ∧
    ((analyze ⟨true, some model, pt, ts⟩ text false s).1.error = none ∧
      (analyze ⟨true, some model, pt, ts⟩ text false s).2
        = updateStatsClear s model.predictOut
            (confidenceOf model.predictProba).2.2) ∧
    (∀ b : Bool, (analyze ⟨true, some model, pt, ts⟩ text b s).2.total_predictions
        = s.total_predictions + 1) ∧
    (∀ b : Bool, (analyze ⟨true, some model, pt, ts⟩ text b s).2.negative_count
        = if model.predictOut = 0 then s.negative_count + 1 else s.negative_count) ∧
    (∀ b : Bool, (analyze ⟨true, some model, pt, ts⟩ text b s).2.positive_count
        = if model.predictOut = 0 then s.positive_count else s.positive_count + 1) ∧
    (∀ b : Bool, (analyze ⟨true, some model, pt, ts⟩ text b s).2.avg_confidence
        = (s.avg_confidence * (s.total_predictions : ℚ)
            + (confidenceOf model.predictProba).2.2)
          / ((s.total_predictions : ℚ) + 1)) ∧
    (analyze ⟨true, some model, pt, ts⟩ text true s).2.total_processing_time
        = s.total_processing_time + pt ∧
    (analyze ⟨true, some model, pt, ts⟩ text true s).2.predictions_history
        = pushHistory s.predictions_history
            ⟨truncText (pyStrip text), sent,
             (confidenceOf model.predictProba).2.2, ts⟩ ∧
    (analyze ⟨true, some model, pt, ts⟩ text false s).2.total_processing_time
        = s.total_processing_time ∧
    (analyze ⟨true, some model, pt, ts⟩ text false s).2.predictions_history
        = s.predictions_history := by
  have hF := analyze_fhe_eval pt ts text s model sent ht hs
  have hC := analyze_clear_eval pt ts text s model sent ht hs
  have havg : ((s.total_predictions + 1 : ℕ) : ℚ) - 1 = (s.total_predictions : ℚ) := by
    push_cast
    ring
  refine ⟨⟨by rw [hF], by rw [hF]⟩, ⟨by rw [hC], by rw [hC]⟩, ?_, ?_, ?_, ?_,
    by rw [hF]; rfl, by rw [hF]; rfl, by rw [hC]; rfl, by rw [hC]; rfl⟩
  · intro b
    cases b
    · rw [hC]; rfl
    · rw [hF]; rfl
  · intro b
    cases b
    · rw [hC]; rfl
    · rw [hF]; rfl
  · intro b
    cases b
    · rw [hC]; rfl
    · rw [hF]; rfl
  · intro b
    cases b
    · rw [hC]
      show (s.avg_confidence * (((s.total_predictions + 1 : ℕ) : ℚ) - 1)
          + (confidenceOf model.predictProba).2.2)
        / ((s.total_predictions + 1 : ℕ) : ℚ) = _
      rw [havg]
      push_cast
      ring
    · rw [hF]
      show (s.avg_confidence * (((s.total_predictions + 1 : ℕ) : ℚ) - 1)
          + (confidenceOf model.predictProba).2.2)
        / ((s.total_predictions + 1 : ℕ) : ℚ) = _
      rw [havg]
      push_cast
      ring

/-- Witness for C4 (amended): a successful privacy-mode call on a concrete
environment, applied through the amended theorem. -/
theorem c4_amended_witness :
    (¬ (pyStrip "good".toList).length = 0
      ∧ sentimentOf (1 : ℤ) = some "Positive") ∧
    (analyze ⟨true, some ⟨1, some [1/4, 3/4]⟩, 1, "t"⟩ "good".toList true
        initStats).2
      = updateStatsFhe initStats 1 "Positive"
          (confidenceOf (some [1/4, 3/4])).2.2 1 (pyStrip "good".toList) "t" :=
  ⟨⟨by decide, by decide⟩,
   (c4_amended_statistics_update 1 "t" "good".toList initStats
      ⟨1, some [1/4, 3/4]⟩ "Positive" (by decide) (by decide)).1.2⟩

end SAFHE
